import Mathlib

/-!
A shallow embedding of the round-lifecycle and scoring core of the Mine-Game
repository (`src/game_state.rs`), together with a model of the `Miner` entity.
The module `miner` is declared in `main.rs` and used by `game_state.rs` and
`ui.rs`, but the file `src/miner.rs` is not part of the sources available
here; the `Miner` definitions below are therefore modelled from the
specification (spec sections 3, 4.1, 4.2) and each such definition is marked
`Modelled from the spec:` in its doc comment.  Everything else is translated
directly from `src/game_state.rs`.

Machine floats (`f32`) are embedded as `ℚ`.  The NaN-sensitive ranking step
(`results.sort_by(|a, b| b.1.partial_cmp(&a.1).unwrap())`) is additionally
embedded over `Option ℚ` (`none` playing the role of NaN) so that the panic
behaviour of the `unwrap` can be analysed.
-/

inductive MinerType where
  | Player
  | Bot
  deriving DecidableEq, Repr

/-- Modelled from the spec: the `Miner` entity of the missing `src/miner.rs`
(spec section 3).  `gold`, `totalGoldMined` and `donatedGold` are `f32` in the
source, embedded as `ℚ`; `health` is an integer starting at 10; the spec
invariant is `alive == (health > 0)` with health clamped at 0. -/
structure Miner where
  kind : MinerType
  gold : ℚ
  total_gold_mined : ℚ
  donated_gold : ℚ
  has_donated_this_round : Bool
  health : ℤ
  alive : Bool
  pickaxe_level : ℕ
  mine_level : ℕ
  deriving DecidableEq, Repr

/-- Modelled from the spec: default stats of a freshly created miner
(spec section 3: health starts at 10, levels start at 0, no gold). -/
def Miner.new (k : MinerType) : Miner :=
  { kind := k
    gold := 0
    total_gold_mined := 0
    donated_gold := 0
    has_donated_this_round := false
    health := 10
    alive := true
    pickaxe_level := 0
    mine_level := 0 }

/-- Modelled from the spec: pickaxe upgrade cost curve (spec section 4.1).
The spec only requires a strictly increasing finite curve for levels 0..3;
the concrete curve (base 50, doubling per level) is a representative choice. -/
def pickaxeUpgradeCostAt (level : ℕ) : ℚ := 50 * 2 ^ level

/-- Modelled from the spec: mine upgrade cost curve (spec section 4.1).
The spec only requires a strictly increasing finite curve for levels 0..3;
the concrete curve (base 100, doubling per level) is a representative choice. -/
def mineUpgradeCostAt (level : ℕ) : ℚ := 100 * 2 ^ level

def Miner.pickaxe_upgrade_cost (m : Miner) : ℚ := pickaxeUpgradeCostAt m.pickaxe_level

def Miner.mine_upgrade_cost (m : Miner) : ℚ := mineUpgradeCostAt m.mine_level

/-- Modelled from the spec: `upgradePickaxe` fails silently (no-op) if
`pickaxeLevel ≥ 4` or `gold < cost`; otherwise deducts the cost from `gold`
(not from `totalGoldMined`) and increments `pickaxeLevel` (spec section 4.2). -/
def Miner.upgrade_pickaxe (m : Miner) : Miner :=
  if 4 ≤ m.pickaxe_level ∨ m.gold < m.pickaxe_upgrade_cost then m
  else { m with
          gold := m.gold - m.pickaxe_upgrade_cost,
          pickaxe_level := m.pickaxe_level + 1 }

/-- Modelled from the spec: same contract as `upgrade_pickaxe`
(spec section 4.2). -/
def Miner.upgrade_mine (m : Miner) : Miner :=
  if 4 ≤ m.mine_level ∨ m.gold < m.mine_upgrade_cost then m
  else { m with
          gold := m.gold - m.mine_upgrade_cost,
          mine_level := m.mine_level + 1 }

/-- Modelled from the spec: `contributeGold(amount)` is a no-op if
`amount ≤ 0` or `amount > gold`; otherwise it deducts `amount` from `gold`,
adds it to `donatedGold` and sets `hasDonatedThisRound` (spec section 4.2). -/
def Miner.contribute_gold (m : Miner) (amount : ℚ) : Miner :=
  if amount ≤ 0 ∨ m.gold < amount then m
  else { m with
          gold := m.gold - amount,
          donated_gold := m.donated_gold + amount,
          has_donated_this_round := true }

/-- Modelled from the spec: `takeDamage(amount)` subtracts `amount` from
`health`; if the resulting health is ≤ 0 the miner dies (`alive := false`)
and health cannot go negative further, i.e. it is clamped at 0
(spec sections 3 and 4.2). -/
def Miner.take_damage (m : Miner) (dmg : ℕ) : Miner :=
  if m.health - (dmg : ℤ) ≤ 0 then { m with health := 0, alive := false }
  else { m with health := m.health - (dmg : ℤ) }

/-- Modelled from the spec: per-tick gold accrual for a living miner, a
function of the elapsed time `dt` and the two upgrade levels, credited to
`gold` and `totalGoldMined` identically (spec section 4.1).  The exact rate
curve is an implementation choice; a representative linear curve is used. -/
def Miner.update (m : Miner) (dt : ℚ) : Miner :=
  if m.alive then
    let earned := dt * (1 + (m.pickaxe_level : ℚ) + (m.mine_level : ℚ))
    { m with
        gold := m.gold + earned,
        total_gold_mined := m.total_gold_mined + earned }
  else m

/-- `GameState` from `src/game_state.rs` lines 17-21. -/
inductive GameState where
  | Playing
  | RoundEnd
  | GameOver
  deriving DecidableEq, Repr

/-- `MAX_ROUNDS` from `src/game_state.rs` line 12. -/
def MAX_ROUNDS : ℕ := 15

/-- `ROUND_DURATION` from `src/game_state.rs` line 13, in seconds. -/
def ROUND_DURATION : ℚ := 60

/-- `MainState` from `src/game_state.rs` lines 23-31.  The `Instant`
`round_start_time` is embedded as a rational timestamp. -/
structure MainState where
  player : Miner
  bots : List Miner
  current_round : ℕ
  round_start_time : ℚ
  game_state : GameState
  round_results : Option (List (ℕ × ℚ))
  past_results : List Bool
  deriving DecidableEq, Repr

/-- `MainState::new` (`src/game_state.rs` lines 34-52): the player plus
exactly 3 bots, round 1, `Playing`, empty history. -/
def MainState.new (now : ℚ) : MainState :=
  { player := Miner.new .Player
    bots := List.replicate 3 (Miner.new .Bot)
    current_round := 1
    round_start_time := now
    game_state := .Playing
    round_results := none
    past_results := [] }

/-- Stable descending insertion by the second (donated-gold) component.
An element coming from earlier in the list is inserted in front of the first
element whose value does not exceed it, so equal values keep their original
relative order — the behaviour of Rust's stable `sort_by` with the comparator
`|a, b| b.1.partial_cmp(&a.1).unwrap()` (`src/game_state.rs` line 301). -/
def insertDesc (a : ℕ × ℚ) : List (ℕ × ℚ) → List (ℕ × ℚ)
  | [] => [a]
  | b :: l => if b.2 ≤ a.2 then a :: b :: l else b :: insertDesc a l

/-- Stable descending sort by donated gold; the embedding of
`results.sort_by(|a, b| b.1.partial_cmp(&a.1).unwrap())`
(`src/game_state.rs` line 301) for NaN-free values. -/
def sortDesc : List (ℕ × ℚ) → List (ℕ × ℚ)
  | [] => []
  | a :: l => insertDesc a (sortDesc l)

/-- The bot-collection loop of `end_round` (`src/game_state.rs` lines
294-298): every *alive* bot contributes the entry `(i + 1, donated_gold)`
where `i` is its index in `self.bots`.  The accumulator `i` is the index of
the head of the remaining list. -/
def collectBots : ℕ → List Miner → List (ℕ × ℚ)
  | _, [] => []
  | i, b :: bs =>
    if b.alive then (i + 1, b.donated_gold) :: collectBots (i + 1) bs
    else collectBots (i + 1) bs

/-- The full ranked result of a scoring pass: the player entry `(0, donated)`
pushed first (`src/game_state.rs` line 291), the alive bots after it, then
the stable descending sort. -/
def rankedOf (s : MainState) : List (ℕ × ℚ) :=
  sortDesc ((0, s.player.donated_gold) :: collectBots 0 s.bots)

/-- Replace the element at an index, leaving the list unchanged when the
index is out of range (in `end_round` the index is always in range). -/
def modifyAt (f : α → α) : ℕ → List α → List α
  | _, [] => []
  | 0, a :: l => f a :: l
  | n + 1, a :: l => a :: modifyAt f n l

/-- The damage loop of `end_round` (`src/game_state.rs` lines 307-318):
walking the ranked list with a zero-indexed position counter, entry `(0, _)`
damages the player by the position and entry `(i + 1, _)` damages bot `i`. -/
def dealDamage : List (ℕ × ℚ) → ℕ → Miner → List Miner → Miner × List Miner
  | [], _, pl, bs => (pl, bs)
  | e :: rest, pos, pl, bs =>
    if e.1 = 0 then dealDamage rest (pos + 1) (pl.take_damage pos) bs
    else dealDamage rest (pos + 1) pl (modifyAt (fun b => b.take_damage pos) (e.1 - 1) bs)

/-- `results.first().map_or(false, |(index, _)| *index == 0)`
(`src/game_state.rs` line 304): whether the player closed the round at
rank 0. -/
def roundWinFlag (s : MainState) : Bool :=
  match (rankedOf s).head? with
  | some e => decide (e.1 = 0)
  | none => false

/-- `MainState::end_round` (`src/game_state.rs` lines 286-352): collect the
player and the alive bots, sort descending by donated gold, record whether
the player is at rank 0, deal rank-indexed damage, reset every miner's
donated gold, store the ranked list for display and run the termination
checks in source order. -/
def MainState.end_round (s : MainState) : MainState :=
  let ranked := rankedOf s
  let dmg := dealDamage ranked 0 s.player s.bots
  let pl := { dmg.1 with donated_gold := 0 }
  let bs := dmg.2.map fun b => { b with donated_gold := 0 }
  { s with
    past_results := s.past_results ++ [roundWinFlag s]
    round_results := some ranked
    player := pl
    bots := bs
    game_state :=
      if pl.alive = false then .GameOver
      else if bs.any (fun b => b.alive) = false then .GameOver
      else if MAX_ROUNDS ≤ s.current_round then .GameOver
      else .RoundEnd }

/-- `MainState::player_has_won` (`src/game_state.rs` lines 354-357). -/
def MainState.player_has_won (s : MainState) : Bool :=
  s.player.alive && !(s.bots.any fun b => b.alive)

/-- `MainState::start_next_round` (`src/game_state.rs` lines 359-370); the
new round start time is the externally supplied current instant. -/
def MainState.start_next_round (s : MainState) (now : ℚ) : MainState :=
  { s with
    current_round := s.current_round + 1
    round_start_time := now
    game_state := .Playing
    round_results := none
    player := { s.player with has_donated_this_round := false }
    bots := s.bots.map fun b => { b with has_donated_this_round := false } }

/-- `MainState::restart_game` (`src/game_state.rs` lines 372-383). -/
def MainState.restart_game (_s : MainState) (now : ℚ) : MainState :=
  { player := Miner.new .Player
    bots := List.replicate 3 (Miner.new .Bot)
    current_round := 1
    round_start_time := now
    game_state := .Playing
    round_results := none
    past_results := [] }

/-- `MainState::bot_consider_upgrades` (`src/game_state.rs` lines 179-284)
restricted to the bot being decided for: the per-slot upgrade tables.  The
`rand::thread_rng().gen_range(0..2)` draws of slots 1, 2 and the fallback
slot are supplied by the oracle `rU`, taken modulo 2. -/
def bot_consider_upgrades (bot : Miner) (i : ℕ) (rU : ℕ) : Miner :=
  if bot.alive = false then bot
  else if i = 0 then
    if bot.pickaxe_level < bot.mine_level ∧ bot.pickaxe_level < 4 ∧
        bot.pickaxe_upgrade_cost ≤ bot.gold then bot.upgrade_pickaxe
    else if bot.mine_level < bot.pickaxe_level ∧ bot.mine_level < 4 ∧
        bot.mine_upgrade_cost ≤ bot.gold then bot.upgrade_mine
    else if bot.pickaxe_level < 4 ∧ bot.pickaxe_upgrade_cost ≤ bot.gold then
      bot.upgrade_pickaxe
    else if bot.mine_level < 4 ∧ bot.mine_upgrade_cost ≤ bot.gold then
      bot.upgrade_mine
    else bot
  else if i = 1 then
    if rU % 2 = 0 then
      if bot.pickaxe_level < 4 ∧ bot.pickaxe_upgrade_cost ≤ bot.gold then
        bot.upgrade_pickaxe
      else if bot.mine_level < 4 ∧ bot.mine_upgrade_cost ≤ bot.gold then
        bot.upgrade_mine
      else bot
    else
      if bot.mine_level < 4 ∧ bot.mine_upgrade_cost ≤ bot.gold then
        bot.upgrade_mine
      else if bot.pickaxe_level < 4 ∧ bot.pickaxe_upgrade_cost ≤ bot.gold then
        bot.upgrade_pickaxe
      else bot
  else if i = 2 then
    if bot.pickaxe_level < bot.mine_level ∧ bot.pickaxe_level < 4 ∧
        bot.pickaxe_upgrade_cost ≤ bot.gold then bot.upgrade_pickaxe
    else if bot.mine_level < bot.pickaxe_level ∧ bot.mine_level < 4 ∧
        bot.mine_upgrade_cost ≤ bot.gold then bot.upgrade_mine
    else if rU % 2 = 0 ∧ bot.pickaxe_level < 4 ∧
        bot.pickaxe_upgrade_cost ≤ bot.gold then bot.upgrade_pickaxe
    else if rU % 2 = 1 ∧ bot.mine_level < 4 ∧
        bot.mine_upgrade_cost ≤ bot.gold then bot.upgrade_mine
    else bot
  else
    if rU % 2 = 0 then
      if bot.pickaxe_level < 4 ∧ bot.pickaxe_upgrade_cost ≤ bot.gold then
        bot.upgrade_pickaxe
      else bot
    else
      if bot.mine_level < 4 ∧ bot.mine_upgrade_cost ≤ bot.gold then
        bot.upgrade_mine
      else bot

/-- `MainState::bot_make_decision` (`src/game_state.rs` lines 55-177)
restricted to the bot being decided for.  `round` is `self.current_round`,
`isEnd` is the precomputed `is_end_of_round` flag, `rU` supplies the integer
random draws and `rQ` the fallback slot's random donation fraction (drawn
from `[0.1, 0.4)` in the source; the oracle is unconstrained here, which only
enlarges the modelled behaviours). -/
def bot_make_decision (bot : Miner) (i : ℕ) (round : ℕ) (isEnd : Bool)
    (rU : ℕ) (rQ : ℚ) : Miner :=
  if bot.alive = false then bot
  else if bot.has_donated_this_round then bot_consider_upgrades bot i rU
  else if i = 0 then
    let bot1 :=
      if bot.health < 3 then
        if 0 < bot.gold then bot.contribute_gold bot.gold else bot
      else bot
    if isEnd then
      if 0 < bot1.gold * (1 / 10) then bot1.contribute_gold (bot1.gold * (1 / 10))
      else bot1
    else bot_consider_upgrades bot1 0 rU
  else if i = 1 then
    if round ≤ 2 ∧ bot.pickaxe_level = 0 ∧ bot.mine_level = 0 ∧
        bot.pickaxe_upgrade_cost ≤ bot.gold then bot.upgrade_pickaxe
    else if isEnd then
      let pct : ℚ := if bot.health < 3 then 9 / 10
        else if bot.health < 5 then 1 / 2 else 7 / 10
      if 0 < bot.gold * pct then bot.contribute_gold (bot.gold * pct) else bot
    else bot_consider_upgrades bot 1 rU
  else if i = 2 then
    if round = 1 ∧ bot.pickaxe_level = 0 ∧ bot.mine_level = 0 ∧
        bot.pickaxe_upgrade_cost ≤ bot.gold then bot.upgrade_pickaxe
    else if isEnd then
      let pct : ℚ := if bot.health < 3 then 9 / 10 else 3 / 10
      if 0 < bot.gold * pct then bot.contribute_gold (bot.gold * pct) else bot
    else bot_consider_upgrades bot 2 rU
  else
    if isEnd ∧ bot.has_donated_this_round = false then
      if 0 < bot.gold * rQ then bot.contribute_gold (bot.gold * rQ) else bot
    else bot_consider_upgrades bot i rU

/-- The accrual step of the `Playing` tick (`src/game_state.rs` lines
477-480): `self.player.update(ctx)` and `bot.update(ctx)` for every bot. -/
def MainState.accrue (s : MainState) (dt : ℚ) : MainState :=
  { s with player := s.player.update dt, bots := s.bots.map fun b => b.update dt }

/-- The decision step of the `Playing` tick (`src/game_state.rs` lines
483-485): `bot_make_decision(i)` for each bot index; each call reads the
bot's own state, the current round and the end-of-round flag, and replaces
only that bot. -/
def MainState.runBotDecisions (s : MainState) (isEnd : Bool) (rU : ℕ → ℕ)
    (rQ : ℕ → ℚ) : MainState :=
  { s with bots := s.bots.enum.map fun e =>
      bot_make_decision e.2 e.1 s.current_round isEnd (rU e.1) (rQ e.1) }

/-- The `is_end_of_round` flag of `bot_make_decision` (`src/game_state.rs`
lines 62-65): elapsed time over the round duration reached 0.8. -/
def isEndOfRound (now start : ℚ) : Bool :=
  decide ((4 : ℚ) / 5 ≤ (now - start) / ROUND_DURATION)

/-- The `GameState::Playing` arm of `EventHandler::update`
(`src/game_state.rs` lines 475-493): accrue gold for the player and every
bot, run each bot's decision logic, then end the round if the elapsed time
reached `ROUND_DURATION`.  `now` is the tick's clock reading, `dt` the
accrual interval, and `rU`, `rQ` give each bot index its random draws. -/
def MainState.tickPlaying (s : MainState) (now dt : ℚ) (rU : ℕ → ℕ)
    (rQ : ℕ → ℚ) : MainState :=
  let s2 := (s.accrue dt).runBotDecisions (isEndOfRound now s.round_start_time) rU rQ
  if ROUND_DURATION ≤ now - s2.round_start_time then s2.end_round else s2

/-- `EventHandler::update` (`src/game_state.rs` lines 471-503): the
simulation tick only acts in the `Playing` state; in `RoundEnd` and
`GameOver` the source's match arms are empty. -/
def MainState.update (s : MainState) (now dt : ℚ) (rU : ℕ → ℕ)
    (rQ : ℕ → ℚ) : MainState :=
  match s.game_state with
  | .Playing => s.tickPlaying now dt rU rQ
  | .RoundEnd => s
  | .GameOver => s

/-- The Shift+X cheatcode (`src/game_state.rs` lines 515-518): 1000 gold
for the player, available while `Playing`. -/
def MainState.cheat_gold (s : MainState) : MainState :=
  { s with player := { s.player with gold := s.player.gold + 1000 } }

/-- The Shift+Y cheatcode (`src/game_state.rs` lines 521-534): shift the
round start time 10 seconds back and end the round if the elapsed time now
reaches `ROUND_DURATION`.  The `Instant::checked_sub` of the source cannot
fail over `ℚ`. -/
def MainState.cheat_time_skip (s : MainState) (now : ℚ) : MainState :=
  let s1 : MainState := { s with round_start_time := s.round_start_time - 10 }
  if ROUND_DURATION ≤ now - s1.round_start_time then s1.end_round else s1

/-- The pickaxe-upgrade button of `handle_game_ui_click`
(`src/game_state.rs` lines 387-391); the hit-test geometry is presentation
glue (spec section 1) and is abstracted to the triggered action. -/
def MainState.player_upgrade_pickaxe (s : MainState) : MainState :=
  { s with player := s.player.upgrade_pickaxe }

/-- The mine-upgrade button of `handle_game_ui_click`
(`src/game_state.rs` lines 394-398). -/
def MainState.player_upgrade_mine (s : MainState) : MainState :=
  { s with player := s.player.upgrade_mine }

/-- The contribution buttons of `handle_game_ui_click`
(`src/game_state.rs` lines 400-422); the clickable amounts are a fixed menu
plus "all", abstracted to an arbitrary requested amount — `contribute_gold`
itself rejects amounts exceeding the player's gold. -/
def MainState.player_contribute (s : MainState) (amount : ℚ) : MainState :=
  { s with player := s.player.contribute_gold amount }

/-- The states reachable through the interface of `MainState`: the initial
state and every transition the event loop can trigger — simulation ticks,
the two cheatcodes and the `Playing` buttons (`mouse_button_down_event`
dispatches clicks by state, `src/game_state.rs` lines 559-583), the
continue button of the round-end panel (drawn only when `round_results` is
`Some`, lines 425-444) and the restart button of the game-over panel
(lines 446-467). -/
inductive Reachable : MainState → Prop where
  | init (now : ℚ) : Reachable (MainState.new now)
  | step_update {s : MainState} (h : Reachable s) (now dt : ℚ)
      (rU : ℕ → ℕ) (rQ : ℕ → ℚ) : Reachable (s.update now dt rU rQ)
  | step_cheat_gold {s : MainState} (h : Reachable s)
      (hp : s.game_state = .Playing) : Reachable s.cheat_gold
  | step_cheat_skip {s : MainState} (h : Reachable s) (now : ℚ)
      (hp : s.game_state = .Playing) : Reachable (s.cheat_time_skip now)
  | step_upgrade_pickaxe {s : MainState} (h : Reachable s)
      (hp : s.game_state = .Playing) : Reachable s.player_upgrade_pickaxe
  | step_upgrade_mine {s : MainState} (h : Reachable s)
      (hp : s.game_state = .Playing) : Reachable s.player_upgrade_mine
  | step_contribute {s : MainState} (h : Reachable s) (amount : ℚ)
      (hp : s.game_state = .Playing) : Reachable (s.player_contribute amount)
  | step_continue {s : MainState} (h : Reachable s) (now : ℚ)
      (hr : s.game_state = .RoundEnd) (hs : s.round_results.isSome = true) :
      Reachable (s.start_next_round now)
  | step_restart {s : MainState} (h : Reachable s) (now : ℚ)
      (hg : s.game_state = .GameOver) : Reachable (s.restart_game now)

/-- The `f32` donated-gold values as the sort's comparator sees them:
`none` is NaN, `some q` a comparable (finite) value. -/
def fcmp (a b : Option ℚ) : Option Ordering :=
  match a, b with
  | some x, some y => some (if x < y then .lt else if x = y then .eq else .gt)
  | _, _ => none

/-- The NaN-aware embedding of the sort's insertion step: the Rust
comparator `|a, b| b.1.partial_cmp(&a.1).unwrap()` is evaluated on each
comparison and the whole sort aborts (= panics) with `none` the first time
it is handed a NaN. -/
def insertF (a : ℕ × Option ℚ) : List (ℕ × Option ℚ) → Option (List (ℕ × Option ℚ))
  | [] => some [a]
  | b :: l =>
    match fcmp b.2 a.2 with
    | none => none
    | some .gt => (insertF a l).map fun t => b :: t
    | some _ => some (a :: b :: l)

/-- NaN-aware stable descending sort: `none` models the
`partial_cmp(..).unwrap()` panic of `src/game_state.rs` line 301. -/
def sortF : List (ℕ × Option ℚ) → Option (List (ℕ × Option ℚ))
  | [] => some []
  | a :: l => (sortF l).bind (insertF a)

/-- The bot-collection loop of `end_round` over NaN-aware values; a bot is
the pair of its alive flag and its donated gold. -/
def collectBotsF : ℕ → List (Bool × Option ℚ) → List (ℕ × Option ℚ)
  | _, [] => []
  | i, b :: bs =>
    if b.1 then (i + 1, b.2) :: collectBotsF (i + 1) bs
    else collectBotsF (i + 1) bs

/-- The ranking step of `end_round` (`src/game_state.rs` lines 288-301) over
NaN-aware values: collect the player and the alive bots, then sort;
`none` is the panic outcome. -/
def rankNaN (pd : Option ℚ) (bots : List (Bool × Option ℚ)) :
    Option (List (ℕ × Option ℚ)) :=
  sortF ((0, pd) :: collectBotsF 0 bots)

/-- The bot-collection loop over plain (NaN-free) rational values, used to
relate `rankNaN` to the NaN-free embedding. -/
def collectBotsQ : ℕ → List (Bool × ℚ) → List (ℕ × ℚ)
  | _, [] => []
  | i, b :: bs =>
    if b.1 then (i + 1, b.2) :: collectBotsQ (i + 1) bs
    else collectBotsQ (i + 1) bs

/-! ### Lemmas about the stable descending sort -/

theorem insertDesc_perm (a : ℕ × ℚ) (l : List (ℕ × ℚ)) :
    List.Perm (insertDesc a l) (a :: l) := by
  induction l with
  | nil => simp [insertDesc]
  | cons b t ih =>
    by_cases h : b.2 ≤ a.2
    · simp [insertDesc, h]
    · simp only [insertDesc, if_neg h]
      exact (ih.cons b).trans (List.Perm.swap a b t)

theorem sortDesc_perm (l : List (ℕ × ℚ)) : List.Perm (sortDesc l) l := by
  induction l with
  | nil => simp [sortDesc]
  | cons a t ih => exact (insertDesc_perm a (sortDesc t)).trans (ih.cons a)

theorem sortDesc_length (l : List (ℕ × ℚ)) : (sortDesc l).length = l.length :=
  (sortDesc_perm l).length_eq

theorem mem_sortDesc {x : ℕ × ℚ} {l : List (ℕ × ℚ)} :
    x ∈ sortDesc l ↔ x ∈ l := (sortDesc_perm l).mem_iff

theorem mem_insertDesc {x a : ℕ × ℚ} {l : List (ℕ × ℚ)} :
    x ∈ insertDesc a l ↔ x = a ∨ x ∈ l := by
  rw [(insertDesc_perm a l).mem_iff, List.mem_cons]

theorem insertDesc_pairwise (a : ℕ × ℚ) (l : List (ℕ × ℚ))
    (h : l.Pairwise fun x y => y.2 ≤ x.2) :
    (insertDesc a l).Pairwise fun x y => y.2 ≤ x.2 := by
  induction l with
  | nil => simp [insertDesc]
  | cons b t ih =>
    rcases List.pairwise_cons.mp h with ⟨hb, ht⟩
    by_cases hba : b.2 ≤ a.2
    · simp only [insertDesc, if_pos hba]
      refine List.pairwise_cons.mpr ⟨?_, h⟩
      intro y hy
      rcases List.mem_cons.mp hy with rfl | hy
      · exact hba
      · exact le_trans (hb y hy) hba
    · simp only [insertDesc, if_neg hba]
      refine List.pairwise_cons.mpr ⟨?_, ih ht⟩
      intro y hy
      rcases mem_insertDesc.mp hy with rfl | hy
      · exact le_of_not_le hba
      · exact hb y hy

theorem sortDesc_pairwise (l : List (ℕ × ℚ)) :
    (sortDesc l).Pairwise fun x y => y.2 ≤ x.2 := by
  induction l with
  | nil => simp [sortDesc]
  | cons a t ih => exact insertDesc_pairwise a (sortDesc t) ih

theorem insertDesc_top (a : ℕ × ℚ) (l : List (ℕ × ℚ))
    (h : ∀ x ∈ l, x.2 ≤ a.2) : insertDesc a l = a :: l := by
  cases l with
  | nil => rfl
  | cons b t => simp [insertDesc, h b (List.mem_cons_self b t)]

/-- Stability at the top: the first-pushed entry stays first whenever its
value is at least every other value. -/
theorem sortDesc_cons_top (a : ℕ × ℚ) (l : List (ℕ × ℚ))
    (h : ∀ x ∈ l, x.2 ≤ a.2) : sortDesc (a :: l) = a :: sortDesc l := by
  rw [sortDesc, insertDesc_top]
  intro x hx
  exact h x (mem_sortDesc.mp hx)

/-! ### Lemmas about the bot-collection loop -/

theorem collectBots_length (i : ℕ) (bs : List Miner) :
    (collectBots i bs).length = (bs.filter fun b => b.alive).length := by
  induction bs generalizing i with
  | nil => rfl
  | cons b t ih =>
    cases h : b.alive <;> simp [collectBots, h, List.filter_cons, ih]

theorem collectBots_fst_lb {i : ℕ} {bs : List Miner} :
    ∀ e ∈ collectBots i bs, i < e.1 := by
  induction bs generalizing i with
  | nil => intro e he; simp [collectBots] at he
  | cons b t ih =>
    intro e he
    by_cases h : b.alive = true
    · simp only [collectBots, if_pos h, List.mem_cons] at he
      rcases he with rfl | he
      · omega
      · have := ih e he; omega
    · simp only [collectBots, if_neg h] at he
      have := ih e he; omega

theorem collectBots_mem {i : ℕ} {bs : List Miner} {e : ℕ × ℚ}
    (he : e ∈ collectBots i bs) :
    ∃ j b, bs[j]? = some b ∧ b.alive = true ∧ e = (i + j + 1, b.donated_gold) := by
  induction bs generalizing i with
  | nil => simp [collectBots] at he
  | cons b t ih =>
    by_cases h : b.alive = true
    · simp only [collectBots, if_pos h, List.mem_cons] at he
      rcases he with rfl | he
      · exact ⟨0, b, by simp, h, by simp⟩
      · obtain ⟨j, b2, hj, hb2, he2⟩ := ih he
        exact ⟨j + 1, b2, by simpa using hj, hb2, by rw [he2]; congr 1; omega⟩
    · simp only [collectBots, if_neg h] at he
      obtain ⟨j, b2, hj, hb2, he2⟩ := ih he
      exact ⟨j + 1, b2, by simpa using hj, hb2, by rw [he2]; congr 1; omega⟩

theorem collectBots_mem_intro {i j : ℕ} {bs : List Miner} {b : Miner}
    (hj : bs[j]? = some b) (hb : b.alive = true) :
    (i + j + 1, b.donated_gold) ∈ collectBots i bs := by
  induction bs generalizing i j with
  | nil => simp at hj
  | cons c t ih =>
    cases j with
    | zero =>
      simp only [List.getElem?_cons_zero, Option.some.injEq] at hj
      subst hj
      simp [collectBots, hb]
    | succ j2 =>
      simp only [List.getElem?_cons_succ] at hj
      have := ih (i := i + 1) hj
      have h2 : i + 1 + j2 + 1 = i + (j2 + 1) + 1 := by omega
      by_cases hc : c.alive = true
      · simp only [collectBots, if_pos hc, List.mem_cons]
        right; rw [← h2]; exact this
      · simp only [collectBots, if_neg hc]
        rw [← h2]; exact this

theorem collectBots_pairwise (i : ℕ) (bs : List Miner) :
    (collectBots i bs).Pairwise fun x y => x.1 < y.1 := by
  induction bs generalizing i with
  | nil => simp [collectBots]
  | cons b t ih =>
    by_cases h : b.alive = true
    · simp only [collectBots, if_pos h]
      refine List.pairwise_cons.mpr ⟨?_, ih (i + 1)⟩
      intro y hy
      have := collectBots_fst_lb y hy
      omega
    · simp only [collectBots, if_neg h]
      exact ih (i + 1)

/-- The index components of the unsorted result list are pairwise distinct:
the player's 0 followed by the strictly increasing alive-bot indices. -/
theorem results_fst_nodup (s : MainState) :
    (((0, s.player.donated_gold) :: collectBots 0 s.bots).map Prod.fst).Nodup := by
  rw [List.map_cons, List.nodup_cons]
  constructor
  · intro h0
    obtain ⟨e, he, hfst⟩ := List.mem_map.mp h0
    have := collectBots_fst_lb e he
    omega
  · have hp := collectBots_pairwise 0 s.bots
    have : ((collectBots 0 s.bots).map Prod.fst).Pairwise (· < ·) :=
      List.pairwise_map.mpr hp
    exact this.imp Nat.ne_of_lt

theorem rankedOf_fst_nodup (s : MainState) :
    ((rankedOf s).map Prod.fst).Nodup := by
  have hperm := (sortDesc_perm ((0, s.player.donated_gold) :: collectBots 0 s.bots)).map Prod.fst
  exact hperm.nodup_iff.mpr (results_fst_nodup s)

/-! ### Lemmas about the damage loop -/

theorem modifyAt_length (f : α → α) (n : ℕ) (l : List α) :
    (modifyAt f n l).length = l.length := by
  induction l generalizing n with
  | nil => cases n <;> rfl
  | cons a t ih => cases n <;> simp [modifyAt, ih]

theorem modifyAt_get_eq (f : α → α) (n : ℕ) (l : List α) :
    (modifyAt f n l)[n]? = (l[n]?).map f := by
  induction l generalizing n with
  | nil => cases n <;> rfl
  | cons a t ih => cases n <;> simp [modifyAt, ih]

theorem modifyAt_get_ne (f : α → α) {n j : ℕ} (l : List α) (h : n ≠ j) :
    (modifyAt f n l)[j]? = l[j]? := by
  induction l generalizing n j with
  | nil => cases n <;> rfl
  | cons a t ih =>
    cases n with
    | zero => cases j with
      | zero => omega
      | succ j2 => simp [modifyAt]
    | succ n2 => cases j with
      | zero => simp [modifyAt]
      | succ j2 => simp only [modifyAt, List.getElem?_cons_succ]; exact ih (by omega)

theorem dealDamage_player_skip (r : List (ℕ × ℚ)) (p : ℕ) (pl : Miner)
    (bs : List Miner) (h : ∀ e ∈ r, e.1 ≠ 0) :
    (dealDamage r p pl bs).1 = pl := by
  induction r generalizing p bs with
  | nil => rfl
  | cons e rest ih =>
    have he : e.1 ≠ 0 := h e (List.mem_cons_self e rest)
    simp only [dealDamage, if_neg he]
    exact ih _ _ fun x hx => h x (List.mem_cons_of_mem e hx)

theorem dealDamage_bot_skip (r : List (ℕ × ℚ)) (p : ℕ) (pl : Miner)
    (bs : List Miner) (j : ℕ) (h : ∀ e ∈ r, e.1 ≠ j + 1) :
    (dealDamage r p pl bs).2[j]? = bs[j]? := by
  induction r generalizing p pl bs with
  | nil => rfl
  | cons e rest ih =>
    have he : e.1 ≠ j + 1 := h e (List.mem_cons_self e rest)
    by_cases h0 : e.1 = 0
    · simp only [dealDamage, if_pos h0]
      exact ih _ _ _ fun x hx => h x (List.mem_cons_of_mem e hx)
    · simp only [dealDamage, if_neg h0]
      rw [ih _ _ _ fun x hx => h x (List.mem_cons_of_mem e hx)]
      exact modifyAt_get_ne _ _ (by omega)

theorem dealDamage_player (r : List (ℕ × ℚ)) (p : ℕ) (pl : Miner)
    (bs : List Miner) (k : ℕ) (g : ℚ) (hk : r[k]? = some (0, g))
    (huniq : ∀ k2 e2, r[k2]? = some e2 → e2.1 = 0 → k2 = k) :
    (dealDamage r p pl bs).1 = pl.take_damage (p + k) := by
  induction r generalizing p pl bs k with
  | nil => simp at hk
  | cons e rest ih =>
    cases k with
    | zero =>
      simp only [List.getElem?_cons_zero, Option.some.injEq] at hk
      subst hk
      simp only [dealDamage, Nat.add_zero, if_true]
      refine dealDamage_player_skip _ _ _ _ ?_
      intro x hx hx0
      obtain ⟨k2, hk2⟩ := List.getElem?_of_mem hx
      have := huniq (k2 + 1) x (by simpa using hk2) hx0
      omega
    | succ k2 =>
      simp only [List.getElem?_cons_succ] at hk
      have he : e.1 ≠ 0 := by
        intro h0
        have := huniq 0 e (by simp) h0
        omega
      simp only [dealDamage, if_neg he]
      have huniq2 : ∀ k3 e3, rest[k3]? = some e3 → e3.1 = 0 → k3 = k2 :=
        fun k3 e3 hk3 h03 => by
          have := huniq (k3 + 1) e3 (by simpa using hk3) h03
          omega
      rw [ih (p + 1) pl (modifyAt (fun b => b.take_damage p) (e.1 - 1) bs) k2 hk huniq2]
      congr 1
      omega

theorem dealDamage_bot (r : List (ℕ × ℚ)) (p : ℕ) (pl : Miner)
    (bs : List Miner) (k j : ℕ) (g : ℚ) (hk : r[k]? = some (j + 1, g))
    (huniq : ∀ k2 e2, r[k2]? = some e2 → e2.1 = j + 1 → k2 = k) :
    (dealDamage r p pl bs).2[j]? = (bs[j]?).map fun b => b.take_damage (p + k) := by
  induction r generalizing p pl bs k with
  | nil => simp at hk
  | cons e rest ih =>
    cases k with
    | zero =>
      simp only [List.getElem?_cons_zero, Option.some.injEq] at hk
      subst hk
      simp only [dealDamage, Nat.add_zero]
      rw [if_neg (by omega : ¬ ((j + 1, g) : ℕ × ℚ).1 = 0)]
      rw [dealDamage_bot_skip]
      · simp only [Nat.add_sub_cancel]
        exact modifyAt_get_eq _ _ _
      · intro x hx hx0
        obtain ⟨k2, hk2⟩ := List.getElem?_of_mem hx
        have := huniq (k2 + 1) x (by simpa using hk2) hx0
        omega
    | succ k2 =>
      simp only [List.getElem?_cons_succ] at hk
      have he : e.1 ≠ j + 1 := by
        intro h0
        have := huniq 0 e (by simp) h0
        omega
      have huniq2 : ∀ k3 e3, rest[k3]? = some e3 → e3.1 = j + 1 → k3 = k2 :=
        fun k3 e3 hk3 h03 => by
          have := huniq (k3 + 1) e3 (by simpa using hk3) h03
          omega
      by_cases h0 : e.1 = 0
      · simp only [dealDamage, if_pos h0]
        rw [ih _ _ _ _ hk huniq2]
        have hpk : p + 1 + k2 = p + (k2 + 1) := by omega
        rw [hpk]
      · simp only [dealDamage, if_neg h0]
        rw [ih _ _ _ _ hk huniq2]
        rw [modifyAt_get_ne _ _ (by omega)]
        have hpk : p + 1 + k2 = p + (k2 + 1) := by omega
        rw [hpk]

/-- Positions of entries with equal first components coincide when the first
components are pairwise distinct. -/
theorem nodup_fst_unique {r : List (ℕ × ℚ)} {k k2 : ℕ} {e e2 : ℕ × ℚ}
    (h : (r.map Prod.fst).Nodup) (hk : r[k]? = some e) (hk2 : r[k2]? = some e2)
    (hee : e.1 = e2.1) : k = k2 := by
  induction r generalizing k k2 with
  | nil => simp at hk
  | cons a t ih =>
    rw [List.map_cons, List.nodup_cons] at h
    cases k with
    | zero =>
      simp only [List.getElem?_cons_zero, Option.some.injEq] at hk
      subst hk
      cases k2 with
      | zero => rfl
      | succ k3 =>
        simp only [List.getElem?_cons_succ] at hk2
        exact absurd (hee ▸ List.mem_map.mpr ⟨e2, List.getElem?_mem hk2, rfl⟩) h.1
    | succ k3 =>
      simp only [List.getElem?_cons_succ] at hk
      cases k2 with
      | zero =>
        simp only [List.getElem?_cons_zero, Option.some.injEq] at hk2
        subst hk2
        exact absurd (hee ▸ List.mem_map.mpr ⟨e, List.getElem?_mem hk, rfl⟩) h.1
      | succ k4 =>
        simp only [List.getElem?_cons_succ] at hk2
        have := ih h.2 hk hk2
        omega

/-! ### Projections of `end_round` -/

theorem end_round_round_results (s : MainState) :
    (s.end_round).round_results = some (rankedOf s) := rfl

theorem end_round_past_results (s : MainState) :
    (s.end_round).past_results = s.past_results ++ [roundWinFlag s] := rfl

theorem end_round_player (s : MainState) :
    (s.end_round).player =
      { (dealDamage (rankedOf s) 0 s.player s.bots).1 with donated_gold := 0 } := rfl

theorem end_round_bots (s : MainState) :
    (s.end_round).bots =
      (dealDamage (rankedOf s) 0 s.player s.bots).2.map
        fun b => { b with donated_gold := 0 } := rfl

theorem end_round_current_round (s : MainState) :
    (s.end_round).current_round = s.current_round := rfl

theorem end_round_game_state (s : MainState) :
    (s.end_round).game_state =
      (if (s.end_round).player.alive = false then .GameOver
       else if (s.end_round).bots.any (fun b => b.alive) = false then .GameOver
       else if MAX_ROUNDS ≤ s.current_round then .GameOver
       else .RoundEnd) := rfl

/-- `end_round` never lands in `Playing`. -/
theorem end_round_not_playing (s : MainState) :
    (s.end_round).game_state ≠ .Playing := by
  rw [end_round_game_state]
  split
  · intro h; exact GameState.noConfusion h
  · split
    · intro h; exact GameState.noConfusion h
    · split
      · intro h; exact GameState.noConfusion h
      · intro h; exact GameState.noConfusion h

theorem rankedOf_length (s : MainState) :
    (rankedOf s).length = 1 + (s.bots.filter fun b => b.alive).length := by
  rw [rankedOf, sortDesc_length, List.length_cons, collectBots_length]
  omega

/-- Claim C1: for every scoring pass with the player alive, the stored ranked
result has exactly one entry for the player plus one per currently alive bot
(hence N entries with N-1 alive bots), it is sorted in descending order of
donated gold, and every ranked miner receives damage equal to its zero-indexed
rank position via `take_damage` (the player for an entry `(0, _)` at position
`k`, bot `j` for an entry `(j + 1, _)` at position `k`). -/
theorem c1_end_round_scoring (s : MainState) (_h : s.player.alive = true) :
    (s.end_round).round_results = some (rankedOf s) ∧
    (rankedOf s).length = 1 + (s.bots.filter fun b => b.alive).length ∧
    (0, s.player.donated_gold) ∈ rankedOf s ∧
    (∀ j b, s.bots[j]? = some b → b.alive = true →
      (j + 1, b.donated_gold) ∈ rankedOf s) ∧
    (rankedOf s).Pairwise (fun x y => y.2 ≤ x.2) ∧
    (∀ k g, (rankedOf s)[k]? = some (0, g) →
      (s.end_round).player = { s.player.take_damage k with donated_gold := 0 }) ∧
    (∀ k j g, (rankedOf s)[k]? = some (j + 1, g) →
      (s.end_round).bots[j]? =
        (s.bots[j]?).map fun b => { b.take_damage k with donated_gold := 0 }) := by
  refine ⟨rfl, rankedOf_length s, ?_, ?_, sortDesc_pairwise _, ?_, ?_⟩
  · exact mem_sortDesc.mpr (List.mem_cons_self _ _)
  · intro j b hj hb
    have := collectBots_mem_intro (i := 0) hj hb
    rw [Nat.zero_add] at this
    exact mem_sortDesc.mpr (List.mem_cons_of_mem _ this)
  · intro k g hk
    rw [end_round_player]
    rw [dealDamage_player (rankedOf s) 0 s.player s.bots k g hk ?uniq]
    · rw [Nat.zero_add]
    case uniq =>
      intro k2 e2 hk2 h02
      exact nodup_fst_unique (rankedOf_fst_nodup s) hk2 hk h02
  · intro k j g hk
    rw [end_round_bots, List.getElem?_map]
    rw [dealDamage_bot (rankedOf s) 0 s.player s.bots k j g hk ?uniq2]
    · rw [Nat.zero_add, Option.map_map]
      rfl
    case uniq2 =>
      intro k2 e2 hk2 h02
      exact nodup_fst_unique (rankedOf_fst_nodup s) hk2 hk h02

theorem c1_witness :
    (MainState.new 0).player.alive = true ∧
    ((MainState.new 0).end_round).round_results = some (rankedOf (MainState.new 0)) :=
  ⟨rfl, (c1_end_round_scoring (MainState.new 0) rfl).1⟩

/-- Claim C2: after every scoring pass the termination checks run in source
order — the result is `GameOver` or `RoundEnd`, and it is `RoundEnd` exactly
when the (post-damage) player is alive, some (post-damage) bot is alive and
the round number is still below `MAX_ROUNDS`; in particular a completed pass
at `current_round = MAX_ROUNDS` with the player and at least one bot alive
lands in `GameOver`, not `RoundEnd`. -/
theorem c2_termination_order (s : MainState) :
    ((s.end_round).game_state = .GameOver ∨ (s.end_round).game_state = .RoundEnd) ∧
    ((s.end_round).game_state = .RoundEnd ↔
      ((s.end_round).player.alive = true ∧
       (s.end_round).bots.any (fun b => b.alive) = true ∧
       s.current_round < MAX_ROUNDS)) ∧
    (s.current_round = MAX_ROUNDS → (s.end_round).player.alive = true →
      (s.end_round).bots.any (fun b => b.alive) = true →
      (s.end_round).game_state = .GameOver) := by
  rw [end_round_game_state]
  refine ⟨?_, ?_, ?_⟩
  · split
    · exact Or.inl rfl
    · split
      · exact Or.inl rfl
      · split
        · exact Or.inl rfl
        · exact Or.inr rfl
  · constructor
    · intro h
      split at h
      · exact absurd h (by simp)
      · split at h
        · exact absurd h (by simp)
        · split at h
          · exact absurd h (by simp)
          · rename_i hpl hbots hr
            refine ⟨?_, ?_, by omega⟩
            · cases hpa : (s.end_round).player.alive with
              | false => exact absurd hpa hpl
              | true => rfl
            · cases hba : (s.end_round).bots.any (fun b => b.alive) with
              | false => exact absurd hba hbots
              | true => rfl
    · rintro ⟨h1, h2, h3⟩
      rw [if_neg (by simp [h1]), if_neg (by simp [h2]), if_neg (by omega)]
  · intro hmax h1 h2
    rw [if_neg (by simp [h1]), if_neg (by simp [h2]), if_pos (by omega)]

theorem c2_witness :
    ({ MainState.new 0 with current_round := 15 } : MainState).end_round.game_state =
      .GameOver ∧
    ({ MainState.new 0 with current_round := 15 } : MainState).current_round = MAX_ROUNDS :=
  ⟨(c2_termination_order _).2.2 rfl (by decide) (by decide), rfl⟩

/-- Claim C7: `restart_game`, from any state, resets the round number to 1,
clears the history and the stored round results, replaces the miners with
exactly 3 alive default-stat bots plus one alive default-stat player, and
transitions to `Playing`. -/
theorem c7_restart_game (s : MainState) (now : ℚ) :
    (s.restart_game now).current_round = 1 ∧
    (s.restart_game now).past_results = [] ∧
    (s.restart_game now).round_results = none ∧
    (s.restart_game now).game_state = .Playing ∧
    (s.restart_game now).bots = List.replicate 3 (Miner.new .Bot) ∧
    (s.restart_game now).bots.length = 3 ∧
    (s.restart_game now).player = Miner.new .Player ∧
    (Miner.new .Bot).alive = true ∧
    (Miner.new .Player).alive = true := by
  refine ⟨rfl, rfl, rfl, rfl, rfl, rfl, rfl, rfl, rfl⟩

/-- Claim C8: `player_has_won` is true exactly when the player is alive and
no bot is; and when a scoring pass leaves the player alive and every bot
dead, the state becomes `GameOver` and `player_has_won` returns true. -/
theorem c8_player_has_won (s : MainState) :
    (s.player_has_won = true ↔
      (s.player.alive = true ∧ s.bots.any (fun b => b.alive) = false)) ∧
    ((s.end_round).player.alive = true →
      (s.end_round).bots.any (fun b => b.alive) = false →
      (s.end_round).game_state = .GameOver ∧ (s.end_round).player_has_won = true) := by
  constructor
  · rw [MainState.player_has_won]
    constructor
    · intro h
      rcases Bool.and_eq_true_iff.mp h with ⟨h1, h2⟩
      exact ⟨h1, by simpa using h2⟩
    · rintro ⟨h1, h2⟩
      rw [h1, h2]
      rfl
  · intro h1 h2
    have hgs : (s.end_round).game_state = .GameOver := by
      rw [end_round_game_state, if_neg (by simp [h1]), if_pos h2]
    refine ⟨hgs, ?_⟩
    rw [MainState.player_has_won, h1, h2]
    rfl

/-- A concrete state whose scoring pass kills all three bots (each starts at
1 health and takes 1, 2 and 3 damage) while the player, at rank 0, is
untouched. -/
def c8state : MainState :=
  { MainState.new 0 with bots := List.replicate 3 { Miner.new .Bot with health := 1 } }

theorem c8_witness :
    (c8state.end_round).game_state = .GameOver ∧
    (c8state.end_round).player_has_won = true :=
  (c8_player_has_won c8state).2 (by decide) (by decide)

/-- Claim C9: a simulation tick in the `RoundEnd` or `GameOver` state leaves
the whole core state (player, bots, round number, round start time, stored
results, history) unchanged. -/
theorem c9_tick_frame (s : MainState) (now dt : ℚ) (rU : ℕ → ℕ) (rQ : ℕ → ℚ)
    (h : s.game_state = .RoundEnd ∨ s.game_state = .GameOver) :
    s.update now dt rU rQ = s := by
  rcases h with h | h <;> rw [MainState.update] <;> rw [h]

def c9state : MainState := { MainState.new 0 with game_state := .RoundEnd }

theorem c9_witness :
    c9state.game_state = .RoundEnd ∧
    c9state.update 0 0 (fun _ => 0) (fun _ => 0) = c9state :=
  ⟨rfl, c9_tick_frame c9state 0 0 (fun _ => 0) (fun _ => 0) (Or.inl rfl)⟩

/-- Claim C10: the player's entry is pushed before the bot entries and the
sort is stable, so whenever the player's donated gold is at least every alive
bot's donated gold (including the all-zero round), the player holds rank 0,
takes 0 damage via `take_damage`, and the round is recorded as a win. -/
theorem c10_stable_player_rank0 (s : MainState)
    (h : ∀ b ∈ s.bots, b.alive = true → b.donated_gold ≤ s.player.donated_gold) :
    (s.end_round).round_results = some (rankedOf s) ∧
    (rankedOf s).head? = some (0, s.player.donated_gold) ∧
    (s.end_round).player = { s.player.take_damage 0 with donated_gold := 0 } ∧
    (s.end_round).past_results = s.past_results ++ [true] := by
  have hcoll : ∀ x ∈ collectBots 0 s.bots, x.2 ≤ s.player.donated_gold := by
    intro x hx
    obtain ⟨j, b, hj, hb, rfl⟩ := collectBots_mem hx
    exact h b (List.getElem?_mem hj) hb
  have key : rankedOf s =
      (0, s.player.donated_gold) :: sortDesc (collectBots 0 s.bots) :=
    sortDesc_cons_top _ _ hcoll
  have hhead : (rankedOf s).head? = some (0, s.player.donated_gold) := by
    rw [key]; rfl
  have hk0 : (rankedOf s)[0]? = some (0, s.player.donated_gold) := by
    rw [key]; simp
  have hflag : roundWinFlag s = true := by
    rw [roundWinFlag, hhead]
    simp
  refine ⟨rfl, hhead, ?_, ?_⟩
  · rw [end_round_player,
      dealDamage_player (rankedOf s) 0 s.player s.bots 0 _ hk0
        (fun k2 e2 hk2 h02 => nodup_fst_unique (rankedOf_fst_nodup s) hk2 hk0 h02)]
  · rw [end_round_past_results, hflag]

theorem c10_witness :
    (rankedOf (MainState.new 0)).head? = some (0, (MainState.new 0).player.donated_gold) ∧
    ((MainState.new 0).end_round).past_results = [true] := by
  have := c10_stable_player_rank0 (MainState.new 0) (by decide)
  exact ⟨this.2.1, by simpa using this.2.2.2⟩

/-- Claim C3: every completed scoring pass appends exactly one boolean to the
history, true exactly when the player holds rank 0 of that round's ranked
result; and no other operation of the interface modifies the history except
a full restart, which clears it — advancing the round, the cheats, the
player's buttons and non-scoring ticks all leave it unchanged, while a tick
or time-skip that does score is exactly an `end_round` on an intermediate
state with the same history. -/
theorem c3_past_results (s : MainState) :
    ((s.end_round).past_results = s.past_results ++ [roundWinFlag s]) ∧
    (roundWinFlag s = true ↔ ((rankedOf s).head?.map Prod.fst = some 0)) ∧
    (∀ now, (s.start_next_round now).past_results = s.past_results) ∧
    (∀ now, (s.restart_game now).past_results = []) ∧
    (s.cheat_gold.past_results = s.past_results) ∧
    (s.player_upgrade_pickaxe.past_results = s.past_results) ∧
    (s.player_upgrade_mine.past_results = s.past_results) ∧
    (∀ amount, (s.player_contribute amount).past_results = s.past_results) ∧
    (∀ now, (s.cheat_time_skip now).past_results = s.past_results ∨
      ∃ s1 : MainState, s.cheat_time_skip now = s1.end_round ∧
        s1.past_results = s.past_results) ∧
    (∀ now dt rU rQ, (s.update now dt rU rQ).past_results = s.past_results ∨
      ∃ s1 : MainState, s.update now dt rU rQ = s1.end_round ∧
        s1.past_results = s.past_results) := by
  refine ⟨rfl, ?_, fun _ => rfl, fun _ => rfl, rfl, rfl, rfl, fun _ => rfl, ?_, ?_⟩
  · rw [roundWinFlag]
    cases hh : (rankedOf s).head? with
    | none => simp
    | some e => simp [eq_comm]
  · intro now
    rw [MainState.cheat_time_skip]
    split
    · exact Or.inr ⟨_, rfl, rfl⟩
    · exact Or.inl rfl
  · intro now dt rU rQ
    cases hgs : s.game_state with
    | Playing =>
      have hu : s.update now dt rU rQ = s.tickPlaying now dt rU rQ := by
        rw [MainState.update, hgs]
      rw [hu, MainState.tickPlaying]
      split
      · exact Or.inr ⟨_, rfl, rfl⟩
      · exact Or.inl rfl
    | RoundEnd =>
      have hu : s.update now dt rU rQ = s := by rw [MainState.update, hgs]
      rw [hu]
      exact Or.inl rfl
    | GameOver =>
      have hu : s.update now dt rU rQ = s := by rw [MainState.update, hgs]
      rw [hu]
      exact Or.inl rfl

theorem pickaxe_cost_lt_mine_cost {p m : ℕ} (h : p ≤ m) :
    pickaxeUpgradeCostAt p < mineUpgradeCostAt m := by
  rw [pickaxeUpgradeCostAt, mineUpgradeCostAt]
  have h2 : (2 : ℚ) ^ p ≤ 2 ^ m := pow_le_pow_right₀ (by norm_num) h
  have h3 : (0 : ℚ) < 2 ^ m := by positivity
  nlinarith

theorem mine_cost_le_pickaxe_cost {m p : ℕ} (h : m < p) :
    mineUpgradeCostAt m ≤ pickaxeUpgradeCostAt p := by
  rw [pickaxeUpgradeCostAt, mineUpgradeCostAt]
  have h2 : (2 : ℚ) ^ (m + 1) ≤ 2 ^ p := pow_le_pow_right₀ (by norm_num) (by omega)
  have h3 : (100 : ℚ) * 2 ^ m = 50 * 2 ^ (m + 1) := by ring
  nlinarith

/-- The claim's wording for slot 0's upgrade table, stated independently of
the source's if-chain: upgrade the track with the strictly lower level (ties
favor the pickaxe) when it is affordable and not maxed — which, when one
track is maxed, amounts to upgrading the other if affordable — and do
nothing otherwise. -/
def slot0_upgrade_spec (bot : Miner) : Miner :=
  if bot.pickaxe_level ≤ bot.mine_level then
    if bot.pickaxe_level < 4 ∧ bot.pickaxe_upgrade_cost ≤ bot.gold then
      bot.upgrade_pickaxe
    else bot
  else
    if bot.mine_level < 4 ∧ bot.mine_upgrade_cost ≤ bot.gold then
      bot.upgrade_mine
    else bot

/-- Claim C6: for every state of slot 0's bot, the source's upgrade chain
coincides with the claim's description `slot0_upgrade_spec`. -/
theorem c6_slot0_upgrade (bot : Miner) (rU : ℕ) (h : bot.alive = true) :
    bot_consider_upgrades bot 0 rU = slot0_upgrade_spec bot := by
  have halive : ¬ bot.alive = false := by simp [h]
  have L1 : bot.pickaxe_level ≤ bot.mine_level →
      bot.pickaxe_upgrade_cost < bot.mine_upgrade_cost :=
    fun hh => pickaxe_cost_lt_mine_cost hh
  have L2 : bot.mine_level < bot.pickaxe_level →
      bot.mine_upgrade_cost ≤ bot.pickaxe_upgrade_cost :=
    fun hh => mine_cost_le_pickaxe_cost hh
  rw [bot_consider_upgrades, slot0_upgrade_spec, if_neg halive, if_pos rfl]
  rcases Nat.lt_trichotomy bot.pickaxe_level bot.mine_level with hpm | hpm | hpm
  · rw [if_pos (Nat.le_of_lt hpm)]
    by_cases hb : bot.pickaxe_level < 4 ∧ bot.pickaxe_upgrade_cost ≤ bot.gold
    · rw [if_pos ⟨hpm, hb.1, hb.2⟩, if_pos hb]
    · rw [if_neg (fun hc => hb ⟨hc.2.1, hc.2.2⟩)]
      rw [if_neg (fun hc : _ ∧ _ => by omega)]
      rw [if_neg hb, if_neg hb]
      refine if_neg (fun hc => ?_)
      have hp4 : bot.pickaxe_level < 4 := by omega
      have hg : ¬ bot.pickaxe_upgrade_cost ≤ bot.gold := fun hgg => hb ⟨hp4, hgg⟩
      have := L1 (Nat.le_of_lt hpm)
      have := hc.2
      linarith
  · rw [if_pos (Nat.le_of_eq hpm)]
    by_cases hb : bot.pickaxe_level < 4 ∧ bot.pickaxe_upgrade_cost ≤ bot.gold
    · rw [if_neg (fun hc : _ ∧ _ => by omega), if_neg (fun hc : _ ∧ _ => by omega)]
      rw [if_pos hb, if_pos hb]
    · rw [if_neg (fun hc : _ ∧ _ => by omega), if_neg (fun hc : _ ∧ _ => by omega)]
      rw [if_neg hb, if_neg hb]
      refine if_neg (fun hc => ?_)
      have hp4 : bot.pickaxe_level < 4 := by omega
      have hg : ¬ bot.pickaxe_upgrade_cost ≤ bot.gold := fun hgg => hb ⟨hp4, hgg⟩
      have := L1 (Nat.le_of_eq hpm)
      have := hc.2
      linarith
  · rw [if_neg (by omega : ¬ bot.pickaxe_level ≤ bot.mine_level)]
    by_cases hb : bot.mine_level < 4 ∧ bot.mine_upgrade_cost ≤ bot.gold
    · rw [if_neg (fun hc : _ ∧ _ => by omega), if_pos ⟨hpm, hb.1, hb.2⟩, if_pos hb]
    · rw [if_neg hb]
      rw [if_neg (fun hc : _ ∧ _ => by omega)]
      rw [if_neg (fun hc => hb ⟨hc.2.1, hc.2.2⟩)]
      refine if_neg (fun hc => ?_)
      have hm4 : bot.mine_level < 4 := by omega
      have hg : ¬ bot.mine_upgrade_cost ≤ bot.gold := fun hgg => hb ⟨hm4, hgg⟩
      have h5 := L2 hpm
      have h6 := hc.2
      linarith

theorem c6_witness :
    (Miner.new .Bot).alive = true ∧
    bot_consider_upgrades (Miner.new .Bot) 0 0 = slot0_upgrade_spec (Miner.new .Bot) :=
  ⟨rfl, c6_slot0_upgrade (Miner.new .Bot) 0 rfl⟩

/-! ### Lemmas about the NaN-aware sort -/

theorem insertF_length {a : ℕ × Option ℚ} {l r : List (ℕ × Option ℚ)}
    (h : insertF a l = some r) : r.length = l.length + 1 := by
  induction l generalizing r with
  | nil =>
    simp only [insertF, Option.some.injEq] at h
    subst h
    rfl
  | cons b t ih =>
    rw [insertF] at h
    cases hc : fcmp b.2 a.2 with
    | none => rw [hc] at h; exact absurd h (by simp)
    | some ord =>
      rw [hc] at h
      cases ord with
      | gt =>
        simp only [Option.map_eq_some'] at h
        obtain ⟨r2, hr2, rfl⟩ := h
        simp [ih hr2]
      | lt =>
        simp only [Option.some.injEq] at h
        subst h
        rfl
      | eq =>
        simp only [Option.some.injEq] at h
        subst h
        rfl

theorem sortF_length {l r : List (ℕ × Option ℚ)} (h : sortF l = some r) :
    r.length = l.length := by
  induction l generalizing r with
  | nil =>
    simp only [sortF, Option.some.injEq] at h
    subst h
    rfl
  | cons a t ih =>
    rw [sortF] at h
    cases hst : sortF t with
    | none => rw [hst] at h; exact absurd h (by simp)
    | some r2 =>
      rw [hst, Option.some_bind] at h
      rw [insertF_length h, ih hst, List.length_cons]

theorem insertF_mem {a : ℕ × Option ℚ} {l r : List (ℕ × Option ℚ)}
    (h : insertF a l = some r) : ∀ e ∈ r, e = a ∨ e ∈ l := by
  induction l generalizing r with
  | nil =>
    simp only [insertF, Option.some.injEq] at h
    subst h
    simp
  | cons b t ih =>
    rw [insertF] at h
    cases hc : fcmp b.2 a.2 with
    | none => rw [hc] at h; exact absurd h (by simp)
    | some ord =>
      rw [hc] at h
      cases ord with
      | gt =>
        simp only [Option.map_eq_some'] at h
        obtain ⟨r2, hr2, rfl⟩ := h
        intro e he
        rcases List.mem_cons.mp he with rfl | he
        · exact Or.inr (List.mem_cons_self _ _)
        · rcases ih hr2 e he with h2 | h2
          · exact Or.inl h2
          · exact Or.inr (List.mem_cons_of_mem _ h2)
      | lt =>
        simp only [Option.some.injEq] at h
        subst h
        intro e he
        rcases List.mem_cons.mp he with rfl | he
        · exact Or.inl rfl
        · exact Or.inr he
      | eq =>
        simp only [Option.some.injEq] at h
        subst h
        intro e he
        rcases List.mem_cons.mp he with rfl | he
        · exact Or.inl rfl
        · exact Or.inr he

theorem sortF_mem {l r : List (ℕ × Option ℚ)} (h : sortF l = some r) :
    ∀ e ∈ r, e ∈ l := by
  induction l generalizing r with
  | nil =>
    simp only [sortF, Option.some.injEq] at h
    subst h
    simp
  | cons a t ih =>
    rw [sortF] at h
    cases hst : sortF t with
    | none => rw [hst] at h; exact absurd h (by simp)
    | some r2 =>
      rw [hst, Option.some_bind] at h
      intro e he
      rcases insertF_mem h e he with rfl | h2
      · exact List.mem_cons_self _ _
      · exact List.mem_cons_of_mem _ (ih hst e h2)

theorem insertF_total {a : ℕ × Option ℚ} {l : List (ℕ × Option ℚ)}
    (ha : a.2 ≠ none) (hl : ∀ e ∈ l, e.2 ≠ none) :
    ∃ r, insertF a l = some r := by
  induction l with
  | nil => exact ⟨[a], rfl⟩
  | cons b t ih =>
    obtain ⟨x, hx⟩ := Option.ne_none_iff_exists'.mp ha
    obtain ⟨y, hy⟩ := Option.ne_none_iff_exists'.mp (hl b (List.mem_cons_self b t))
    rw [insertF, hx, hy]
    rw [fcmp]
    cases hord : (if y < x then Ordering.lt else if y = x then Ordering.eq else Ordering.gt) with
    | gt =>
      obtain ⟨r2, hr2⟩ := ih fun e he => hl e (List.mem_cons_of_mem _ he)
      exact ⟨b :: r2, by rw [hr2]; rfl⟩
    | lt => exact ⟨a :: b :: t, rfl⟩
    | eq => exact ⟨a :: b :: t, rfl⟩

theorem sortF_total {l : List (ℕ × Option ℚ)} (hl : ∀ e ∈ l, e.2 ≠ none) :
    ∃ r, sortF l = some r := by
  induction l with
  | nil => exact ⟨[], rfl⟩
  | cons a t ih =>
    obtain ⟨r2, hr2⟩ := ih fun e he => hl e (List.mem_cons_of_mem _ he)
    have ha : a.2 ≠ none := hl a (List.mem_cons_self a t)
    have hr2mem : ∀ e ∈ r2, e.2 ≠ none := fun e he =>
      hl e (List.mem_cons_of_mem _ (sortF_mem hr2 e he))
    obtain ⟨r, hr⟩ := insertF_total ha hr2mem
    exact ⟨r, by rw [sortF, hr2, Option.some_bind, hr]⟩

theorem insertF_none_left {a : ℕ × Option ℚ} {l : List (ℕ × Option ℚ)}
    (ha : a.2 = none) (hl : l ≠ []) : insertF a l = none := by
  cases l with
  | nil => exact absurd rfl hl
  | cons b t =>
    rw [insertF, ha]
    cases b.2 <;> rfl

theorem insertF_none_head {a b : ℕ × Option ℚ} {t : List (ℕ × Option ℚ)}
    (hb : b.2 = none) : insertF a (b :: t) = none := by
  rw [insertF, hb]
  rfl

/-- With at least two entries to rank, a NaN anywhere makes the sort panic:
every entry of a two-or-more element list takes part in at least one
comparison, and the comparator's `unwrap` panics on the NaN one. -/
theorem sortF_none_of_nan {l : List (ℕ × Option ℚ)} (hlen : 2 ≤ l.length)
    (hnan : ∃ e ∈ l, e.2 = none) : sortF l = none := by
  induction l with
  | nil => simp at hlen
  | cons a t ih =>
    obtain ⟨e, he, hnone⟩ := hnan
    rw [sortF]
    rcases List.mem_cons.mp he with rfl | het
    · cases hst : sortF t with
      | none => rfl
      | some r =>
        rw [Option.some_bind]
        refine insertF_none_left hnone ?_
        have hr := sortF_length hst
        intro hre
        subst hre
        simp only [List.length_nil] at hr
        simp only [List.length_cons] at hlen
        omega
    · by_cases ht2 : 2 ≤ t.length
      · rw [ih ht2 ⟨e, het, hnone⟩]
        rfl
      · have ht1 : t.length = 1 := by
          have := List.length_pos.mpr (List.ne_nil_of_mem het)
          omega
        cases t with
        | nil => simp at het
        | cons b t2 =>
          cases t2 with
          | cons c t3 => simp at ht1
          | nil =>
            rcases List.mem_singleton.mp het with rfl
            have h1 : sortF [e] = some [e] := rfl
            rw [h1, Option.some_bind]
            exact insertF_none_head hnone

/-- All-comparable inputs agree with the NaN-free stable sort: the NaN-aware
sort succeeds and produces exactly the embedding's `sortDesc` of the
underlying rationals. -/
theorem sortF_lift (l : List (ℕ × ℚ)) :
    sortF (l.map fun e => (e.1, some e.2)) =
      some ((sortDesc l).map fun e => (e.1, some e.2)) := by
  have hins : ∀ (a : ℕ × ℚ) (l2 : List (ℕ × ℚ)),
      insertF (a.1, some a.2) (l2.map fun e => (e.1, some e.2)) =
        some ((insertDesc a l2).map fun e => (e.1, some e.2)) := by
    intro a l2
    induction l2 with
    | nil => rfl
    | cons b t ih =>
      simp only [List.map_cons]
      rw [insertF, fcmp]
      rcases lt_trichotomy b.2 a.2 with hlt | heq | hgt
      · rw [if_pos hlt, insertDesc, if_pos (le_of_lt hlt)]
        simp only [List.map_cons]
      · rw [if_neg (by rw [heq]; exact lt_irrefl _), if_pos heq,
          insertDesc, if_pos (le_of_eq heq)]
        simp only [List.map_cons]
      · rw [if_neg (not_lt_of_gt hgt), if_neg (ne_of_gt hgt),
          insertDesc, if_neg (not_le_of_gt hgt), ih]
        simp only [List.map_cons]
        rfl
  induction l with
  | nil => rfl
  | cons a t ih =>
    simp only [List.map_cons]
    rw [sortF, ih, Option.some_bind, sortDesc, hins]

theorem collectBotsF_mem {i : ℕ} {bots : List (Bool × Option ℚ)} :
    ∀ e ∈ collectBotsF i bots, ∃ b ∈ bots, b.1 = true ∧ e.2 = b.2 := by
  induction bots generalizing i with
  | nil => intro e he; simp [collectBotsF] at he
  | cons b t ih =>
    intro e he
    by_cases hb : b.1 = true
    · simp only [collectBotsF, if_pos hb, List.mem_cons] at he
      rcases he with rfl | he
      · exact ⟨b, List.mem_cons_self b t, hb, rfl⟩
      · obtain ⟨b2, hb2, hal, hval⟩ := ih e he
        exact ⟨b2, List.mem_cons_of_mem _ hb2, hal, hval⟩
    · simp only [collectBotsF, if_neg hb] at he
      obtain ⟨b2, hb2, hal, hval⟩ := ih e he
      exact ⟨b2, List.mem_cons_of_mem _ hb2, hal, hval⟩

theorem collectBotsF_lift (i : ℕ) (bots : List (Bool × ℚ)) :
    collectBotsF i (bots.map fun e => (e.1, some e.2)) =
      (collectBotsQ i bots).map fun e => (e.1, some e.2) := by
  induction bots generalizing i with
  | nil => rfl
  | cons b t ih =>
    simp only [List.map_cons]
    by_cases hb : b.1 = true
    · rw [collectBotsF, collectBotsQ, if_pos hb, if_pos hb]
      simp only [List.map_cons, ih]
    · rw [collectBotsF, collectBotsQ, if_neg hb, if_neg hb, ih]

/-- Claim C4 (amended): the ranking step's `partial_cmp(..).unwrap()` panics
exactly when a NaN donated value is among at least two ranked entries; with a
single ranked entry no comparison happens and no panic occurs; and when the
player's and every alive bot's donated values are non-NaN the comparison is
total — the sort succeeds, never panics, and returns the deterministic
stable descending order of the NaN-free embedding. -/
theorem c4_nan_ranking :
    (∀ l : List (ℕ × ℚ),
      sortF (l.map fun e => (e.1, some e.2)) =
        some ((sortDesc l).map fun e => (e.1, some e.2))) ∧
    (∀ l : List (ℕ × Option ℚ), 2 ≤ l.length → (∃ e ∈ l, e.2 = none) →
      sortF l = none) ∧
    (∀ (pd : ℚ) (bots : List (Bool × Option ℚ)),
      (∀ b ∈ bots, b.1 = true → b.2 ≠ none) →
      ∃ r, rankNaN (some pd) bots = some r) ∧
    (∀ (pd : ℚ) (bots : List (Bool × ℚ)),
      rankNaN (some pd) (bots.map fun e => (e.1, some e.2)) =
        some ((sortDesc ((0, pd) :: collectBotsQ 0 bots)).map
          fun e => (e.1, some e.2))) := by
  refine ⟨sortF_lift, fun l => sortF_none_of_nan, ?_, ?_⟩
  · intro pd bots h
    refine sortF_total ?_
    intro e he
    rcases List.mem_cons.mp he with rfl | he
    · simp
    · obtain ⟨b, hb, hal, hval⟩ := collectBotsF_mem e he
      rw [hval]
      exact h b hb hal
  · intro pd bots
    rw [rankNaN, collectBotsF_lift]
    have : ((0 : ℕ), some pd) :: ((collectBotsQ 0 bots).map fun e => (e.1, some e.2)) =
        (((0 : ℕ), pd) :: collectBotsQ 0 bots).map fun e => (e.1, some e.2) := by
      simp
    rw [this, sortF_lift]

theorem c4_witness :
    sortF [((0 : ℕ), (none : Option ℚ)), (1, some 1)] = none ∧
    (∃ r, rankNaN (some (0 : ℚ)) [(true, some 1)] = some r) :=
  ⟨c4_nan_ranking.2.1 _ (by decide) ⟨(0, none), by decide, rfl⟩,
   c4_nan_ranking.2.2.1 0 [(true, some 1)] (by decide)⟩

/-- The claim as stated is refuted here: the player's donated value is NaN
and no bot is alive, so exactly one entry is ranked, the comparator is never
invoked, and end-of-round scoring does not panic. -/
theorem c4_counterexample :
    rankNaN none [(false, some 1)] = some [(0, none)] := by decide

/-- Claim C5 (amended): in every reachable state the stored ranked result is
`none` while `Playing`, and can be non-empty only in `RoundEnd` or
`GameOver` — `end_round` stores the ranked list and keeps it stored also
when it transitions directly to `GameOver`. -/
theorem c5_round_results_lifecycle {s : MainState} (h : Reachable s) :
    (s.game_state = .Playing → s.round_results = none) ∧
    (s.round_results ≠ none →
      s.game_state = .RoundEnd ∨ s.game_state = .GameOver) := by
  have main : ∀ {s2 : MainState}, Reachable s2 →
      (s2.game_state = .Playing → s2.round_results = none) := by
    intro s2 h2
    induction h2 with
    | init now => intro _; rfl
    | step_update h now dt rU rQ ih =>
      rename_i s0
      cases hgs : s0.game_state with
      | Playing =>
        have hu : s0.update now dt rU rQ = s0.tickPlaying now dt rU rQ := by
          rw [MainState.update, hgs]
        rw [hu, MainState.tickPlaying]
        split
        · intro hp
          exact absurd hp (end_round_not_playing _)
        · intro _
          exact ih hgs
      | RoundEnd =>
        have hu : s0.update now dt rU rQ = s0 := by rw [MainState.update, hgs]
        rw [hu]
        exact ih
      | GameOver =>
        have hu : s0.update now dt rU rQ = s0 := by rw [MainState.update, hgs]
        rw [hu]
        exact ih
    | step_cheat_gold h hp ih => exact fun h2 => ih h2
    | step_cheat_skip h now hp ih =>
      rename_i s0
      rw [MainState.cheat_time_skip]
      split
      · intro h2
        exact absurd h2 (end_round_not_playing _)
      · intro _
        exact ih hp
    | step_upgrade_pickaxe h hp ih => exact fun h2 => ih h2
    | step_upgrade_mine h hp ih => exact fun h2 => ih h2
    | step_contribute h amount hp ih => exact fun h2 => ih h2
    | step_continue h now hr hs ih => intro _; rfl
    | step_restart h now hg ih => intro _; rfl
  refine ⟨main h, ?_⟩
  intro hne
  cases hgs : s.game_state with
  | Playing => exact absurd (main h hgs) hne
  | RoundEnd => exact Or.inl rfl
  | GameOver => exact Or.inr rfl

theorem c5_witness : (MainState.new 0).round_results = none :=
  (c5_round_results_lifecycle (Reachable.init 0)).1 rfl

/-- A concrete refuting run for C5 as stated: starting from a fresh game,
each round is a single tick at `now = 60` with accrual interval 10; the bots
donate at end of round, the player never does, so the player takes 3 damage
per round and dies during the fourth scoring pass — `end_round` stores the
ranked list and transitions straight to `GameOver`. -/
def c5s1 : MainState := (MainState.new 0).update 60 10 (fun _ => 0) (fun _ => 0)

def c5s2 : MainState := c5s1.start_next_round 0

def c5s3 : MainState := c5s2.update 60 10 (fun _ => 0) (fun _ => 0)

def c5s4 : MainState := c5s3.start_next_round 0

def c5s5 : MainState := c5s4.update 60 10 (fun _ => 0) (fun _ => 0)

def c5s6 : MainState := c5s5.start_next_round 0

def c5s7 : MainState := c5s6.update 60 10 (fun _ => 0) (fun _ => 0)

unseal Rat.add Rat.sub Rat.mul Rat.inv in
theorem c5_counterexample :
    Reachable c5s7 ∧ c5s7.game_state = .GameOver ∧ c5s7.round_results ≠ none := by
  refine ⟨?_, by decide, by decide⟩
  refine Reachable.step_update ?_ 60 10 (fun _ => 0) (fun _ => 0)
  refine Reachable.step_continue ?_ 0 (by decide) (by decide)
  refine Reachable.step_update ?_ 60 10 (fun _ => 0) (fun _ => 0)
  refine Reachable.step_continue ?_ 0 (by decide) (by decide)
  refine Reachable.step_update ?_ 60 10 (fun _ => 0) (fun _ => 0)
  refine Reachable.step_continue ?_ 0 (by decide) (by decide)
  refine Reachable.step_update ?_ 60 10 (fun _ => 0) (fun _ => 0)
  exact Reachable.init 0

theorem c3_witness :
    ((MainState.new 0).end_round).past_results = [] ++ [roundWinFlag (MainState.new 0)] :=
  (c3_past_results (MainState.new 0)).1

theorem c7_witness : ((MainState.new 0).restart_game 5).current_round = 1 :=
  (c7_restart_game (MainState.new 0) 5).1
